import Mathlib

/-
Verification of the vendor-date resolution and caching subsystem of the
us-stocks-screener repository (src/us_symbols). Python strings are embedded
as lists of characters; pandas tables keyed by symbol are embedded as
association lists built with dict-style assignment; the network client
(yfinance downloads) is an external collaborator and is embedded as an
oracle describing the outcome of each download attempt. Dates are embedded
as natural numbers (any linearly ordered stand-in for calendar dates).
-/

/-- Symb is the embedding of a Python string: a list of characters. -/
abbrev Symb := List Char

/-- Date embeds a calendar date (datetime.date); only ordering and equality
of dates matter to the code under verification. -/
abbrev Date := Nat

/-! ### Python string primitives used by the source -/

/-- pyIsSpace embeds the whitespace test of Python str.strip, which removes
space, tab, newline, carriage return, vertical tab and form feed. -/
def pyIsSpace (c : Char) : Bool :=
  c = ' ' || c = '\t' || c = '\n' || c = '\x0d' || c = '\x0b' || c = '\x0c'

/-- pyStripLead drops leading whitespace, the first half of str.strip. -/
def pyStripLead (s : Symb) : Symb := s.dropWhile pyIsSpace

/-- pyStripTrail drops trailing whitespace, the second half of str.strip. -/
def pyStripTrail (s : Symb) : Symb := (s.reverse.dropWhile pyIsSpace).reverse

/-- pyStrip embeds Python str.strip: remove leading and trailing whitespace. -/
def pyStrip (s : Symb) : Symb := pyStripTrail (pyStripLead s)

/-- pyUpper embeds Python str.upper on the ASCII tickers this program
handles; Char.toUpper is exactly the ASCII uppercase map. -/
def pyUpper (s : Symb) : Symb := s.map Char.toUpper

/-- normSym is the ticker normalization the source applies entry-wise:
t.strip().upper(). -/
def normSym (s : Symb) : Symb := pyUpper (pyStrip s)

/-! ### Character-level facts -/

theorem charEq_of_toNat {a b : Char} (h : a.toNat = b.toNat) : a = b :=
  Char.eq_of_val_eq (UInt32.ext h)

theorem toNat_toUpper (c : Char) :
    (Char.toUpper c).toNat =
      if 97 ≤ c.toNat && c.toNat ≤ 122 then c.toNat - 32 else c.toNat := by
  unfold Char.toUpper
  by_cases h : 97 ≤ c.toNat ∧ c.toNat ≤ 122
  · have hv : (c.toNat - 32).isValidChar := by left; omega
    simp [ge_iff_le, h]
    simp [Char.ofNat, hv]
    rfl
  · simp [ge_iff_le, h]

theorem toUpper_toUpper (c : Char) :
    Char.toUpper (Char.toUpper c) = Char.toUpper c := by
  apply charEq_of_toNat
  rw [toNat_toUpper, toNat_toUpper]
  simp only [Bool.and_eq_true, decide_eq_true_eq]
  split_ifs <;> omega

theorem pyIsSpace_iff_toNat (c : Char) :
    pyIsSpace c = true ↔
      c.toNat = 32 ∨ c.toNat = 9 ∨ c.toNat = 10 ∨ c.toNat = 13 ∨
      c.toNat = 11 ∨ c.toNat = 12 := by
  unfold pyIsSpace
  simp only [Bool.or_eq_true, decide_eq_true_eq]
  constructor
  · rintro (((((h | h) | h) | h) | h) | h) <;> subst h <;> simp [Char.toNat]
  · rintro (h | h | h | h | h | h) <;>
      [skip; skip; skip; skip; skip; skip] <;>
      first
      | (left; left; left; left; left; exact charEq_of_toNat h)
      | (left; left; left; left; right; exact charEq_of_toNat h)
      | (left; left; left; right; exact charEq_of_toNat h)
      | (left; left; right; exact charEq_of_toNat h)
      | (left; right; exact charEq_of_toNat h)
      | (right; exact charEq_of_toNat h)

theorem pyIsSpace_toUpper (c : Char) : pyIsSpace (Char.toUpper c) = pyIsSpace c := by
  by_cases h : 97 ≤ c.toNat ∧ c.toNat ≤ 122
  · have hup : (Char.toUpper c).toNat = c.toNat - 32 := by
      rw [toNat_toUpper]; simp [h.1, h.2]
    have h1 : pyIsSpace (Char.toUpper c) = false := by
      by_contra hcon
      have := (pyIsSpace_iff_toNat (Char.toUpper c)).1 (by
        cases hb : pyIsSpace (Char.toUpper c)
        · exact absurd hb hcon
        · rfl)
      omega
    have h2 : pyIsSpace c = false := by
      by_contra hcon
      have := (pyIsSpace_iff_toNat c).1 (by
        cases hb : pyIsSpace c
        · exact absurd hb hcon
        · rfl)
      omega
    rw [h1, h2]
  · have hup : Char.toUpper c = c := by
      apply charEq_of_toNat
      rw [toNat_toUpper]
      have : (97 ≤ c.toNat && c.toNat ≤ 122) = false := by simp; omega
      rw [this]
      simp
    rw [hup]

/-! ### String-level normalization facts -/

theorem dropWhile_dropWhile (p : Char → Bool) (l : Symb) :
    List.dropWhile p (List.dropWhile p l) = List.dropWhile p l := by
  induction l with
  | nil => rfl
  | cons x xs ih =>
    by_cases h : p x
    · simp [List.dropWhile_cons, h, ih]
    · simp [List.dropWhile_cons, h]

theorem dropWhile_head_false {p : Char → Bool} {l : Symb} {x : Char} {xs : Symb}
    (h : List.dropWhile p l = x :: xs) : p x = false := by
  induction l with
  | nil => simp at h
  | cons y ys ih =>
    by_cases hy : p y
    · rw [List.dropWhile_cons, if_pos hy] at h
      exact ih h
    · rw [List.dropWhile_cons, if_neg hy] at h
      cases h
      cases hb : p x
      · rfl
      · exact absurd hb hy

theorem pyStripTrail_eq_take (s : Symb) : ∃ t, s = pyStripTrail s ++ t := by
  have hsuf := List.dropWhile_suffix (l := s.reverse) pyIsSpace
  obtain ⟨u, hu⟩ := hsuf
  refine ⟨u.reverse, ?_⟩
  unfold pyStripTrail
  have := congrArg List.reverse hu
  rw [List.reverse_append] at this
  rw [this, List.reverse_reverse]

theorem dropWhile_of_append_drop {p : Char → Bool} {a t s : Symb}
    (hs : s = a ++ t) (hdrop : List.dropWhile p s = s) : List.dropWhile p a = a := by
  cases a with
  | nil => rfl
  | cons x xs =>
    subst hs
    have hx : p x = false := by simpa using hdrop
    rw [List.dropWhile_cons, if_neg (by simp [hx])]

theorem pyStrip_idem (s : Symb) : pyStrip (pyStrip s) = pyStrip s := by
  unfold pyStrip
  set y := pyStripLead s with hy
  have hylead : List.dropWhile pyIsSpace y = y := by
    rw [hy]
    unfold pyStripLead
    exact dropWhile_dropWhile pyIsSpace s
  obtain ⟨t, ht⟩ := pyStripTrail_eq_take y
  have hzlead : pyStripLead (pyStripTrail y) = pyStripTrail y :=
    dropWhile_of_append_drop ht hylead
  rw [hzlead]
  unfold pyStripTrail
  rw [List.reverse_reverse, dropWhile_dropWhile]

theorem pyStripLead_pyUpper (s : Symb) :
    pyStripLead (pyUpper s) = pyUpper (pyStripLead s) := by
  unfold pyStripLead pyUpper
  have hfun : (pyIsSpace ∘ Char.toUpper) = pyIsSpace := funext pyIsSpace_toUpper
  rw [List.dropWhile_map, hfun]

theorem pyStripTrail_pyUpper (s : Symb) :
    pyStripTrail (pyUpper s) = pyUpper (pyStripTrail s) := by
  unfold pyStripTrail pyUpper
  have hfun : (pyIsSpace ∘ Char.toUpper) = pyIsSpace := funext pyIsSpace_toUpper
  rw [← List.map_reverse, List.dropWhile_map, hfun, ← List.map_reverse]

theorem pyStrip_pyUpper (s : Symb) : pyStrip (pyUpper s) = pyUpper (pyStrip s) := by
  unfold pyStrip
  rw [pyStripLead_pyUpper, pyStripTrail_pyUpper]

theorem pyUpper_idem (s : Symb) : pyUpper (pyUpper s) = pyUpper s := by
  unfold pyUpper
  rw [List.map_map]
  exact List.map_congr_left fun c _ => toUpper_toUpper c

theorem normSym_idem (s : Symb) : normSym (normSym s) = normSym s := by
  unfold normSym
  rw [pyStrip_pyUpper, pyUpper_idem, pyStrip_idem]

/-! ### Embedding of src/us_symbols/normalize.py -/

/-- replaceChar embeds the Python single-character str.replace(a, b) calls
used by the notation adapter: a characterwise substitution. -/
def replaceChar (a b : Char) (s : Symb) : Symb :=
  s.map fun c => if c = a then b else c

/-- yahooSuffixes lists, in source order, the slash suffixes checked by the
warrants/rights/units branch of to_yahoo_symbol: /WS, /W, /WT, /RT, /U. -/
def yahooSuffixes : List Symb :=
  [['/', 'W', 'S'], ['/', 'W'], ['/', 'W', 'T'], ['/', 'R', 'T'], ['/', 'U']]

/-- endsWithAny embeds the loop over suffix pairs in to_yahoo_symbol; every
matching branch of the source returns the same replace chain, so only
whether some listed suffix matches is relevant. -/
def endsWithAny (s : Symb) (sufs : List Symb) : Bool :=
  sufs.any fun suf => suf.isSuffixOf s

/-- to_yahoo_symbol embeds normalize.to_yahoo_symbol. A caret splits into
base and suffix (split at the first caret, as Python split with maxsplit 1);
otherwise a listed slash suffix, and finally the generic branch, replace
dots and slashes with hyphens, in the replace orders of the source. -/
def to_yahoo_symbol (symbol : Symb) : Symb :=
  let s := pyUpper (pyStrip symbol)
  if ('^' : Char) ∈ s then
    let base := s.takeWhile fun c => decide (c ≠ '^')
    let suf := pyStrip (s.dropWhile (fun c => decide (c ≠ '^'))).tail
    if suf ≠ [] then base ++ ('-' :: 'P' :: suf) else base
  else if endsWithAny s yahooSuffixes then
    replaceChar '.' '-' (replaceChar '/' '-' s)
  else
    replaceChar '/' '-' (replaceChar '.' '-' s)

/-- from_yahoo_symbol embeds normalize.from_yahoo_symbol, the best-effort
reverse mapping: hyphens back to dots. -/
def from_yahoo_symbol (symbol : Symb) : Symb := replaceChar '-' '.' symbol

/-- toVendorFormSpec restates the toVendorForm contract in the words of the
spec (section 4.1), for comparison against to_yahoo_symbol: rule 1 maps
base^suffix to base-Psuffix with the suffix whitespace-trimmed and
uppercased, or base alone for an empty suffix; rules 2 and 3 replace every
dot and every slash by a hyphen. -/
def toVendorFormSpec (ticker : Symb) : Symb :=
  let s := pyUpper (pyStrip ticker)
  let dashed := s.map fun c => if c = '.' || c = '/' then '-' else c
  if ('^' : Char) ∈ s then
    let base := s.takeWhile fun c => decide (c ≠ '^')
    let suffix := pyUpper (pyStrip (s.dropWhile (fun c => decide (c ≠ '^'))).tail)
    if suffix = [] then base else base ++ ('-' :: 'P' :: suffix)
  else if endsWithAny s yahooSuffixes then dashed
  else dashed

theorem replaceChar_dot_slash (s : Symb) :
    replaceChar '.' '-' (replaceChar '/' '-' s) =
      s.map fun c => if c = '.' || c = '/' then '-' else c := by
  unfold replaceChar
  rw [List.map_map]
  apply List.map_congr_left
  intro c _
  by_cases h1 : c = '.'
  · subst h1; simp
  · by_cases h2 : c = '/'
    · subst h2; simp
    · simp [h1, h2, Function.comp]

theorem replaceChar_slash_dot (s : Symb) :
    replaceChar '/' '-' (replaceChar '.' '-' s) =
      s.map fun c => if c = '.' || c = '/' then '-' else c := by
  unfold replaceChar
  rw [List.map_map]
  apply List.map_congr_left
  intro c _
  by_cases h1 : c = '.'
  · subst h1; simp
  · by_cases h2 : c = '/'
    · subst h2; simp
    · simp [h1, h2, Function.comp]

theorem caret_tail_upper_fixed (ticker : Symb) :
    pyUpper (pyStrip ((pyUpper (pyStrip ticker)).dropWhile
        (fun c => decide (c ≠ '^'))).tail) =
      pyStrip ((pyUpper (pyStrip ticker)).dropWhile (fun c => decide (c ≠ '^'))).tail := by
  have hpred : ((fun c => decide (c ≠ '^')) ∘ Char.toUpper) = fun c => decide (c ≠ '^') := by
    funext c
    by_cases h : c = '^'
    · subst h; simp
    · have hne : Char.toUpper c ≠ '^' := by
        intro hEq
        have := congrArg Char.toNat hEq
        rw [toNat_toUpper] at this
        have hc : ('^' : Char).toNat = 94 := rfl
        by_cases hr : 97 ≤ c.toNat ∧ c.toNat ≤ 122
        · rw [if_pos (by simp [hr.1, hr.2])] at this
          omega
        · rw [if_neg (by simpa using fun h1 h2 => hr ⟨h1, h2⟩)] at this
          exact h (charEq_of_toNat (by omega))
      simp [h, hne]
  have hdrop : ((pyUpper (pyStrip ticker)).dropWhile fun c => decide (c ≠ '^')) =
      pyUpper ((pyStrip ticker).dropWhile fun c => decide (c ≠ '^')) := by
    unfold pyUpper
    rw [List.dropWhile_map, hpred]
  rw [hdrop]
  have htail : (pyUpper ((pyStrip ticker).dropWhile fun c => decide (c ≠ '^'))).tail =
      pyUpper (((pyStrip ticker).dropWhile fun c => decide (c ≠ '^')).tail) := by
    unfold pyUpper
    cases (pyStrip ticker).dropWhile fun c => decide (c ≠ '^') <;> rfl
  rw [htail, pyStrip_pyUpper, pyUpper_idem]

/-- C9: to_yahoo_symbol is a pure total function implementing the three
section 4.1 rules in order (caret to -P suffix or bare base, listed slash
suffixes, then the generic dot/slash-to-hyphen rewrite), and in particular
maps BRK.B to BRK-B, NLY^F to NLY-PF and ABC/WS to ABC-WS; it agrees with
the spec-worded toVendorFormSpec on every input. -/
theorem to_yahoo_symbol_spec :
    to_yahoo_symbol "BRK.B".data = "BRK-B".data ∧
    to_yahoo_symbol "NLY^F".data = "NLY-PF".data ∧
    to_yahoo_symbol "ABC/WS".data = "ABC-WS".data ∧
    ∀ s : Symb, to_yahoo_symbol s = toVendorFormSpec s := by
  refine ⟨by decide, by decide, by decide, fun s => ?_⟩
  unfold to_yahoo_symbol toVendorFormSpec
  by_cases hcaret : ('^' : Char) ∈ pyUpper (pyStrip s)
  · simp only [hcaret, if_true]
    rw [caret_tail_upper_fixed]
    by_cases hemp : pyStrip ((pyUpper (pyStrip s)).dropWhile fun c => decide (c ≠ '^')).tail = []
    · simp [hemp]
    · simp [hemp]
  · simp only [hcaret, if_false]
    by_cases hsuf : endsWithAny (pyUpper (pyStrip s)) yahooSuffixes
    · simp only [hsuf, if_true]
      exact replaceChar_dot_slash _
    · simp only [hsuf, if_false]
      exact replaceChar_slash_dot _

/-! ### Association-list embedding of Python dicts keyed by symbol -/

/-- mset embeds Python dict assignment d[k] = v: overwrite in place if the
key exists, else append at the end, preserving insertion order. -/
def mset (m : List (Symb × Date)) (k : Symb) (v : Date) : List (Symb × Date) :=
  match m with
  | [] => [(k, v)]
  | p :: rest => if p.1 = k then (k, v) :: rest else p :: mset rest k v

/-- mfind embeds Python dict lookup d.get(k). -/
def mfind (m : List (Symb × Date)) (k : Symb) : Option Date :=
  match m with
  | [] => none
  | p :: rest => if p.1 = k then some p.2 else mfind rest k

/-- keyMem embeds the Python membership test k in d. -/
def keyMem (m : List (Symb × Date)) (k : Symb) : Bool :=
  (mfind m k).isSome

/-- keysOf lists the keys of the embedded dict in insertion order. -/
def keysOf (m : List (Symb × Date)) : List Symb := m.map Prod.fst

/-- nodupKeys states the dict invariant: no key occurs twice. -/
def nodupKeys (m : List (Symb × Date)) : Prop := (keysOf m).Nodup

theorem mfind_mset_self (m : List (Symb × Date)) (k : Symb) (v : Date) :
    mfind (mset m k v) k = some v := by
  induction m with
  | nil => simp [mset, mfind]
  | cons p rest ih =>
    by_cases h : p.1 = k
    · simp [mset, h, mfind]
    · simp [mset, h, mfind, ih]

theorem mfind_mset_ne (m : List (Symb × Date)) (k k' : Symb) (v : Date)
    (h : k' ≠ k) : mfind (mset m k v) k' = mfind m k' := by
  have hne : k ≠ k' := fun hh => h hh.symm
  induction m with
  | nil => simp [mset, mfind, hne]
  | cons p rest ih =>
    by_cases hp : p.1 = k
    · subst hp
      have hne2 : p.1 ≠ k' := hne
      simp [mset, mfind, hne2]
    · simp only [mset, if_neg hp, mfind]
      by_cases hpk : p.1 = k'
      · rw [if_pos hpk, if_pos hpk]
      · rw [if_neg hpk, if_neg hpk]
        exact ih

theorem mem_keysOf_mset (m : List (Symb × Date)) (k a : Symb) (v : Date)
    (h : a ∈ keysOf (mset m k v)) : a = k ∨ a ∈ keysOf m := by
  induction m with
  | nil => simpa [mset, keysOf] using h
  | cons p rest ih =>
    by_cases hp : p.1 = k
    · simp [mset, hp, keysOf] at h
      rcases h with h | h
      · exact Or.inl h
      · exact Or.inr (by simp [keysOf, h])
    · simp [mset, hp, keysOf] at h
      rcases h with h | h
      · exact Or.inr (by simp [keysOf, h])
      · rcases ih (by simpa [keysOf] using h) with h2 | h2
        · exact Or.inl h2
        · exact Or.inr (by simp [keysOf]; right; simpa [keysOf] using h2)

theorem nodupKeys_mset (m : List (Symb × Date)) (k : Symb) (v : Date)
    (h : nodupKeys m) : nodupKeys (mset m k v) := by
  induction m with
  | nil => simp [mset, nodupKeys, keysOf]
  | cons p rest ih =>
    unfold nodupKeys keysOf at h
    simp only [List.map_cons, List.nodup_cons] at h
    by_cases hp : p.1 = k
    · subst hp
      unfold nodupKeys keysOf
      simpa [mset] using h
    · have hrest := ih h.2
      unfold nodupKeys keysOf
      simp only [mset, hp, if_false, List.map_cons, List.nodup_cons]
      constructor
      · intro hcon
        rcases mem_keysOf_mset rest k p.1 v (by simpa [keysOf] using hcon) with h2 | h2
        · exact hp h2
        · exact h.1 (by simpa [keysOf] using h2)
      · exact hrest

theorem mfind_eq_some_of_mem {m : List (Symb × Date)} {k : Symb} {v : Date}
    (hnd : nodupKeys m) (hmem : (k, v) ∈ m) : mfind m k = some v := by
  induction m with
  | nil => simp at hmem
  | cons p rest ih =>
    unfold nodupKeys keysOf at hnd
    simp only [List.map_cons, List.nodup_cons] at hnd
    rcases List.mem_cons.1 hmem with h | h
    · subst h
      simp [mfind]
    · have hne : p.1 ≠ k := by
        intro hEq
        exact hnd.1 (by
          have : k ∈ rest.map Prod.fst := List.mem_map.2 ⟨(k, v), h, rfl⟩
          simpa [hEq] using this)
      simp [mfind, hne]
      exact ih hnd.2 h

theorem mem_of_mfind_eq_some {m : List (Symb × Date)} {k : Symb} {v : Date}
    (h : mfind m k = some v) : (k, v) ∈ m := by
  induction m with
  | nil => simp [mfind] at h
  | cons p rest ih =>
    by_cases hp : p.1 = k
    · rw [mfind, if_pos hp] at h
      have hv : p.2 = v := by injection h
      have hkv : (k, v) = p := by
        cases p
        simp only at hp hv
        rw [hp, hv]
      rw [hkv]
      exact List.mem_cons_self _ _
    · rw [mfind, if_neg hp] at h
      exact List.mem_cons_of_mem _ (ih h)

theorem mset_eq_append {m : List (Symb × Date)} {k : Symb} (v : Date)
    (h : mfind m k = none) : mset m k v = m ++ [(k, v)] := by
  induction m with
  | nil => simp [mset]
  | cons p rest ih =>
    by_cases hp : p.1 = k
    · rw [mfind, if_pos hp] at h
      simp at h
    · rw [mfind, if_neg hp] at h
      simp [mset, hp, ih h]

/-! ### First-seen deduplication (dict.fromkeys) -/

/-- dedupSeen walks the list keeping the first occurrence of each element,
the behavior of dict.fromkeys; seen accumulates elements already kept. -/
def dedupSeen : List Symb → List Symb → List Symb
  | [], _ => []
  | x :: xs, seen =>
    if x ∈ seen then dedupSeen xs seen else x :: dedupSeen xs (x :: seen)

/-- dedupFirstSeen embeds list(dict.fromkeys(l)): deduplicate preserving
first-seen order. -/
def dedupFirstSeen (l : List Symb) : List Symb := dedupSeen l []

theorem mem_dedupSeen {l seen : List Symb} {a : Symb}
    (h : a ∈ dedupSeen l seen) : a ∈ l := by
  induction l generalizing seen with
  | nil => simp [dedupSeen] at h
  | cons x xs ih =>
    by_cases hx : x ∈ seen
    · rw [dedupSeen, if_pos hx] at h
      exact List.mem_cons_of_mem _ (ih h)
    · rw [dedupSeen, if_neg hx] at h
      rcases List.mem_cons.1 h with h2 | h2
      · exact h2 ▸ List.mem_cons_self _ _
      · exact List.mem_cons_of_mem _ (ih h2)

theorem dedupSeen_disjoint {l seen : List Symb} {a : Symb}
    (h : a ∈ dedupSeen l seen) : a ∉ seen := by
  induction l generalizing seen with
  | nil => simp [dedupSeen] at h
  | cons x xs ih =>
    by_cases hx : x ∈ seen
    · rw [dedupSeen, if_pos hx] at h
      exact ih h
    · rw [dedupSeen, if_neg hx] at h
      rcases List.mem_cons.1 h with h2 | h2
      · exact h2 ▸ hx
      · intro hcon
        exact ih h2 (List.mem_cons_of_mem _ hcon)

theorem nodup_dedupSeen (l : List Symb) : ∀ seen, (dedupSeen l seen).Nodup := by
  induction l with
  | nil => intro seen; simp [dedupSeen]
  | cons x xs ih =>
    intro seen
    by_cases hx : x ∈ seen
    · rw [dedupSeen, if_pos hx]
      exact ih seen
    · rw [dedupSeen, if_neg hx]
      refine List.nodup_cons.2 ⟨?_, ih (x :: seen)⟩
      intro hcon
      exact dedupSeen_disjoint hcon (List.mem_cons_self _ _)

theorem nodup_dedupFirstSeen (l : List Symb) : (dedupFirstSeen l).Nodup :=
  nodup_dedupSeen l []

theorem mem_dedupFirstSeen {l : List Symb} {a : Symb}
    (h : a ∈ dedupFirstSeen l) : a ∈ l := mem_dedupSeen h

/-! ### Embedding of the cache merge in src/us_symbols/cli.py

The seeding step (cli.py lines 98 to 116) and the universe-cache update
(lines 246 to 263) both concatenate two symbol/date tables and take the
per-symbol minimum date with groupby min. minOfList is the embedding of
the pandas min aggregation, groupMinDate reads the aggregate of one table
at one symbol, and mergeCaches is concatenation followed by groupby min. -/

/-- minOfList embeds the pandas groupby min aggregation over the dates of
one symbol group; an empty group has no aggregate. -/
def minOfList : List Date → Option Date
  | [] => none
  | x :: xs =>
    match minOfList xs with
    | none => some x
    | some m => some (Nat.min x m)

/-- groupMinDate gives the per-symbol minimum date of a rows table, the
value groupby("Symbol")["EarliestVendorDate"].min() assigns to symbol s. -/
def groupMinDate (rows : List (Symb × Date)) (s : Symb) : Option Date :=
  minOfList ((rows.filter fun p => decide (p.1 = s)).map Prod.snd)

/-- mergeCaches embeds pd.concat of two tables followed by groupby min, the
merge used when seeding the vendor cache and when updating the universe
cache. -/
def mergeCaches (A B : List (Symb × Date)) (s : Symb) : Option Date :=
  groupMinDate (A ++ B) s

/-- optMin combines the aggregates of two groups: the minimum across both,
with an absent group neutral. -/
def optMin : Option Date → Option Date → Option Date
  | none, y => y
  | some a, none => some a
  | some a, some b => some (Nat.min a b)

theorem minOfList_append (l1 l2 : List Date) :
    minOfList (l1 ++ l2) = optMin (minOfList l1) (minOfList l2) := by
  induction l1 with
  | nil =>
    cases h : minOfList l2 <;> simp [minOfList, optMin, h]
  | cons x xs ih =>
    simp only [List.cons_append, minOfList, List.append_eq]
    rw [ih]
    cases h1 : minOfList xs <;> cases h2 : minOfList l2 <;>
      simp [optMin, h1, h2, Nat.min_assoc]

theorem optMin_comm (a b : Option Date) : optMin a b = optMin b a := by
  cases a <;> cases b <;> simp [optMin, Nat.min_comm]

theorem optMin_idem (a : Option Date) : optMin a a = a := by
  cases a <;> simp [optMin, Nat.min_self]

/-- C4: merging two symbol-to-date tables (concatenate, then per-symbol
minimum, as in the vendor-cache seeding and the universe-cache
aggregation) yields for every symbol the minimum date seen across both
tables; hence the merge is commutative and idempotent per symbol. -/
theorem mergeCaches_min_comm_idem (A B : List (Symb × Date)) (s : Symb) :
    mergeCaches A B s = optMin (groupMinDate A s) (groupMinDate B s) ∧
    mergeCaches A B s = mergeCaches B A s ∧
    mergeCaches A A s = groupMinDate A s := by
  have hchar : ∀ X Y : List (Symb × Date),
      mergeCaches X Y s = optMin (groupMinDate X s) (groupMinDate Y s) := by
    intro X Y
    unfold mergeCaches groupMinDate
    rw [List.filter_append, List.map_append, minOfList_append]
  refine ⟨hchar A B, ?_, ?_⟩
  · rw [hchar A B, hchar B A, optMin_comm]
  · rw [hchar A A, optMin_idem]

/-! ### Embedding of the staleness sampler size (cli.py lines 141 to 142) -/

/-- sampleSize embeds k = max(int(math.ceil(len(candidates) * frac)), min_n)
followed by k = min(k, len(candidates)); the float sample fraction is
embedded as a rational, exact at the fractions the defaults use. -/
def sampleSize (n : Nat) (frac : ℚ) (min_n : Nat) : ℤ :=
  min (max ⌈(n : ℚ) * frac⌉ (min_n : ℤ)) (n : ℤ)

/-- C8: for a non-empty candidate set of size n, sample fraction f and
minimum sample m, the sample size is min(max(ceil(n * f), m), n); in
particular 500 candidates at fraction 0.05 with minimum 20 give 25, and 10
candidates with minimum 20 give 10. -/
theorem sampleSize_spec :
    (∀ (n : Nat) (frac : ℚ) (min_n : Nat), 0 < n →
      sampleSize n frac min_n = min (max ⌈(n : ℚ) * frac⌉ (min_n : ℤ)) (n : ℤ)) ∧
    sampleSize 500 (5 / 100) 20 = 25 ∧
    sampleSize 10 (5 / 100) 20 = 10 := by
  refine ⟨fun n frac min_n _ => rfl, ?_, ?_⟩
  · have hc : (⌈((500 : Nat) : ℚ) * (5 / 100)⌉ : ℤ) = 25 := by
      push_cast
      norm_num
    unfold sampleSize
    rw [hc]
    decide
  · have hc : (⌈((10 : Nat) : ℚ) * (5 / 100)⌉ : ℤ) = 1 := by
      push_cast
      rw [Int.ceil_eq_iff]
      norm_num
    unfold sampleSize
    rw [hc]
    decide

/-- Witness for C8 at the concrete sizes named by the claim. -/
theorem sampleSize_spec_witness :
    sampleSize 500 (5 / 100) 20 =
      min (max ⌈(500 : ℚ) * (5 / 100)⌉ ((20 : Nat) : ℤ)) ((500 : Nat) : ℤ) :=
  sampleSize_spec.1 500 (5 / 100) 20 (by decide)

/-! ### Embedding of the resolver src/us_symbols/vendor_yahoo.py

yfinance downloads are external network calls; each call is embedded as an
oracle outcome: a rate-limit signal (an exception whose message matches the
rate-limit tests of the source), any other exception, or a successful
DataFrame. A successful frame is embedded as the partial map that sends a
vendor symbol to the date of its first non-missing monthly close, if any;
that is the only content of the frame the source reads. -/

/-- FetchOutcome embeds one yf.download call: rate-limited exception, other
exception, or success with per-vendor-symbol earliest close date. -/
inductive FetchOutcome where
  | rateLimited : FetchOutcome
  | otherError : FetchOutcome
  | success : (Symb → Option Date) → FetchOutcome

/-- FetchEnv is the network oracle: batchFetch gives the outcome of the
batch download for a batch ordinal and attempt number, singleFetch the
outcome of the single-symbol fallback download for a vendor symbol and
attempt number. -/
structure FetchEnv where
  batchFetch : Nat → Nat → FetchOutcome
  singleFetch : Symb → Nat → FetchOutcome

/-- batchRetryGo embeds the batch retry loop (vendor_yahoo.py lines 35 to
58): while attempt <= max_retries and df is None, download; on a rate-limit
signal sleep pause * 2 ^ attempt and retry, on any other error stop with no
frame. The fuel argument counts the loop iterations still allowed, and the
returned list records the backoff waits performed in order. -/
def batchRetryGo (fetch : Nat → FetchOutcome) (pause : ℚ) (attempt : Nat) :
    Nat → Option (Symb → Option Date) × List ℚ
  | 0 => (none, [])
  | fuel + 1 =>
    match fetch attempt with
    | FetchOutcome.success data => (some data, [])
    | FetchOutcome.rateLimited =>
      let r := batchRetryGo fetch pause (attempt + 1) fuel
      (r.1, pause * 2 ^ attempt :: r.2)
    | FetchOutcome.otherError => (none, [])

/-- batchRetry runs the batch retry loop from attempt 0; the guard
attempt <= max_retries allows exactly max_retries + 1 iterations. -/
def batchRetry (fetch : Nat → FetchOutcome) (pause : ℚ) (max_retries : Nat) :
    Option (Symb → Option Date) × List ℚ :=
  batchRetryGo fetch pause 0 (max_retries + 1)

/-- singleRetryGo embeds the single-symbol fallback loop (lines 83 to 106):
on success the first non-missing close date resolves the symbol and an
empty frame stops the loop; a rate-limit signal backs off pause * 2 ^
attempt and retries; any other error stops immediately. -/
def singleRetryGo (fetch : Nat → FetchOutcome) (ysym : Symb) (pause : ℚ)
    (attempt : Nat) : Nat → Option Date × List ℚ
  | 0 => (none, [])
  | fuel + 1 =>
    match fetch attempt with
    | FetchOutcome.success data =>
      match data ysym with
      | some d => (some d, [])
      | none => (none, [])
    | FetchOutcome.rateLimited =>
      let r := singleRetryGo fetch ysym pause (attempt + 1) fuel
      (r.1, pause * 2 ^ attempt :: r.2)
    | FetchOutcome.otherError => (none, [])

/-- singleRetry runs the fallback loop from attempt 0 with its own retry
budget of max_retries. -/
def singleRetry (fetch : Nat → FetchOutcome) (ysym : Symb) (pause : ℚ)
    (max_retries : Nat) : Option Date × List ℚ :=
  singleRetryGo fetch ysym pause 0 (max_retries + 1)

/-- PyEntry embeds one element of the Python input iterable: a string, or
any non-string value (None, NaN, a number), which the source filters out
with the test t and isinstance(t, str). -/
inductive PyEntry where
  | str : Symb → PyEntry
  | nonstr : PyEntry

/-- keptTicker embeds the comprehension filter: keep t when t is truthy
(non-empty for a string) and a string. -/
def keptTicker : PyEntry → Option Symb
  | PyEntry.str s => if s = [] then none else some s
  | PyEntry.nonstr => none

/-- chunksGo slices a list into consecutive batches of size batch_size, as
the range(0, len, batch_size) loop does; fuel bounds the iterations and is
instantiated with the list length, enough for every positive batch size
(a zero batch size raises ValueError in Python and yields no batches
here). -/
def chunksGo (batch_size : Nat) : Nat → List Symb → List (List Symb)
  | _, [] => []
  | 0, _ :: _ => []
  | fuel + 1, x :: xs =>
    (x :: xs).take batch_size :: chunksGo batch_size fuel ((x :: xs).drop batch_size)

/-- chunks embeds the batch slicing of the resolver loop. -/
def chunks (batch_size : Nat) (l : List Symb) : List (List Symb) :=
  chunksGo batch_size l.length l

/-- assignFromFrame embeds the loop of vendor_yahoo.py lines 63 to 71: for
each original symbol of the batch, read the frame at its vendor symbol and
record the date of the first non-missing close in the results dict; a
missing or empty column leaves the symbol for the fallback. -/
def assignFromFrame (data : Symb → Option Date) (results : List (Symb × Date))
    (batch : List Symb) : List (Symb × Date) :=
  batch.foldl (fun acc orig =>
    match data (to_yahoo_symbol orig) with
    | some d => mset acc orig d
    | none => acc) results

/-- assignBatch embeds lines 60 to 76: with a frame in hand, record the
first non-missing close date of each batch member; with no frame leave the
results dict unchanged. -/
def assignBatch (df : Option (Symb → Option Date)) (results : List (Symb × Date))
    (batch : List Symb) : List (Symb × Date) :=
  match df with
  | some data => assignFromFrame data results batch
  | none => results

/-- singleStep embeds one iteration of the fallback loop of lines 78 to
107: skip a symbol already resolved, otherwise record the date the
single-symbol download resolves to, if any. -/
def singleStep (env : FetchEnv) (pause : ℚ) (max_retries : Nat)
    (acc : List (Symb × Date)) (t : Symb) : List (Symb × Date) :=
  if keyMem acc t then acc
  else
    match (singleRetry (env.singleFetch (to_yahoo_symbol t))
        (to_yahoo_symbol t) pause max_retries).1 with
    | some d => mset acc t d
    | none => acc

/-- processBatches embeds the body of the resolver loop (vendor_yahoo.py
lines 31 to 112) over the list of batches: the batch download with
retries, the per-symbol extraction into the results dict, and the
single-symbol fallback for batch members still unresolved. The tqdm
progress bar and the throttle sleeps between fetches carry no state and
are not represented. -/
def processBatches (env : FetchEnv) (pause : ℚ) (max_retries : Nat) :
    List (List Symb) → Nat → List (Symb × Date) → List (Symb × Date)
  | [], _, results => results
  | batch :: rest, bIdx, results =>
    let df := (batchRetry (env.batchFetch bIdx) pause max_retries).1
    let afterBatch := assignBatch df results batch
    let missing := batch.filter fun t => !keyMem afterBatch t
    let afterSingles := missing.foldl (singleStep env pause max_retries) afterBatch
    processBatches env pause max_retries rest (bIdx + 1) afterSingles

/-- earliest_vendor_dates embeds vendor_yahoo.earliest_vendor_dates: filter
the input to truthy strings, strip and uppercase each, deduplicate
preserving first-seen order, then resolve batch by batch; the returned
rows are the results dict in insertion order, one Symbol and
EarliestVendorDate per resolved ticker. -/
def earliest_vendor_dates (env : FetchEnv) (tickers : List PyEntry)
    (batch_size : Nat) (pause : ℚ) (max_retries : Nat) : List (Symb × Date) :=
  let ts := dedupFirstSeen ((tickers.filterMap keptTicker).map normSym)
  processBatches env pause max_retries (chunks batch_size ts) 0 []

/-! ### Retry and backoff facts -/

theorem batchRetryGo_success (fetch : Nat → FetchOutcome) (pause : ℚ) :
    ∀ (k attempt fuel : Nat) (data : Symb → Option Date),
      (∀ a, a < k → fetch (attempt + a) = FetchOutcome.rateLimited) →
      fetch (attempt + k) = FetchOutcome.success data →
      k < fuel →
      batchRetryGo fetch pause attempt fuel =
        (some data, (List.range k).map fun a => pause * 2 ^ (attempt + a)) := by
  intro k
  induction k with
  | zero =>
    intro attempt fuel data _ hsucc hlt
    cases fuel with
    | zero => omega
    | succ f =>
      rw [batchRetryGo]
      rw [show attempt + 0 = attempt from rfl] at hsucc
      rw [hsucc]
      simp
  | succ k ih =>
    intro attempt fuel data hrl hsucc hlt
    cases fuel with
    | zero => omega
    | succ f =>
      rw [batchRetryGo]
      have h0 : fetch attempt = FetchOutcome.rateLimited := by
        have := hrl 0 (Nat.succ_pos k)
        simpa using this
      rw [h0]
      have hrec := ih (attempt + 1) f data
        (fun a ha => by
          have := hrl (a + 1) (by omega)
          rw [show attempt + (a + 1) = attempt + 1 + a by omega] at this
          exact this)
        (by rw [show attempt + 1 + k = attempt + (k + 1) by omega]; exact hsucc)
        (by omega)
      have htail : List.map (fun a => pause * 2 ^ (attempt + 1 + a)) (List.range k) =
          List.map ((fun a => pause * 2 ^ (attempt + a)) ∘ Nat.succ) (List.range k) := by
        apply List.map_congr_left
        intro a _
        simp only [Function.comp_apply]
        have hh : attempt + 1 + a = attempt + Nat.succ a := by omega
        rw [hh]
      rw [hrec]
      simp only []
      rw [List.range_succ_eq_map]
      simp only [List.map_cons, List.map_map, Nat.add_zero]
      rw [htail]

theorem batchRetryGo_exhausted (fetch : Nat → FetchOutcome) (pause : ℚ) :
    ∀ (fuel attempt : Nat),
      (∀ a, attempt ≤ a → a < attempt + fuel → fetch a = FetchOutcome.rateLimited) →
      (batchRetryGo fetch pause attempt fuel).1 = none := by
  intro fuel
  induction fuel with
  | zero => intro attempt _; rfl
  | succ f ih =>
    intro attempt hrl
    rw [batchRetryGo]
    have h0 : fetch attempt = FetchOutcome.rateLimited :=
      hrl attempt (Nat.le_refl _) (by omega)
    rw [h0]
    exact ih (attempt + 1) fun a h1 h2 => hrl a (by omega) (by omega)

/-- C7: in the batch fetch loop a rate-limit signal on attempt a sleeps
exactly pause * 2 ^ a before the retry, for attempts 0 through max_retries;
with rate limits on every attempt up to k and success at attempt k the loop
returns the frame after backoffs pause * 2 ^ 0 .. pause * 2 ^ (k - 1);
exhausting every attempt leaves the batch with no frame instead of
raising, and the single-symbol fallback then runs, as the concrete run
with a permanently rate-limited batch endpoint and a working single
endpoint shows. -/
theorem batch_backoff_spec :
    (∀ (fetch : Nat → FetchOutcome) (pause : ℚ) (max_retries k : Nat)
        (data : Symb → Option Date),
      (∀ a, a < k → fetch a = FetchOutcome.rateLimited) →
      fetch k = FetchOutcome.success data →
      k ≤ max_retries →
      batchRetry fetch pause max_retries =
        (some data, (List.range k).map fun a => pause * 2 ^ a)) ∧
    (∀ (fetch : Nat → FetchOutcome) (pause : ℚ) (max_retries : Nat),
      (∀ a, a ≤ max_retries → fetch a = FetchOutcome.rateLimited) →
      (batchRetry fetch pause max_retries).1 = none) ∧
    earliest_vendor_dates
        ⟨fun _ _ => FetchOutcome.rateLimited,
         fun _ _ => FetchOutcome.success fun _ => some 7⟩
        [PyEntry.str "AAPL".data] 50 1 3 = [("AAPL".data, 7)] := by
  refine ⟨?_, ?_, ?_⟩
  · intro fetch pause mr k data hrl hsucc hk
    unfold batchRetry
    have h := batchRetryGo_success fetch pause k 0 (mr + 1) data
      (fun a ha => by simpa using hrl a ha)
      (by simpa using hsucc) (by omega)
    rw [h]
    simp only [Nat.zero_add]
  · intro fetch pause mr hrl
    exact batchRetryGo_exhausted fetch pause (mr + 1) 0
      (fun a h1 h2 => hrl a (by omega))
  · rfl

/-- Witness for C7: rate-limit signals on attempts 0 and 1 and success on
attempt 2 with pause 1.0 and max_retries 2 produce exactly the two backoff
waits 1.0 and 2.0 before the successful attempt. -/
theorem batch_backoff_spec_witness :
    batchRetry
        (fun a => if a < 2 then FetchOutcome.rateLimited
          else FetchOutcome.success fun _ => some (7 : Date)) 1 2 =
      (some (fun _ => some (7 : Date)), [1, 2]) := by
  have h := batch_backoff_spec.1
    (fun a => if a < 2 then FetchOutcome.rateLimited
      else FetchOutcome.success fun _ => some (7 : Date))
    1 2 2 (fun _ => some 7)
    (fun a ha => by simp [ha])
    (by simp)
    (by omega)
  rw [h]
  congr 1
  simp [List.range_succ]

/-! ### Key provenance through the resolver -/

theorem keys_foldl_step {f : List (Symb × Date) → Symb → List (Symb × Date)}
    (hf : ∀ acc x k, k ∈ keysOf (f acc x) → k ∈ keysOf acc ∨ k = x) :
    ∀ (l : List Symb) (acc : List (Symb × Date)) (k : Symb),
      k ∈ keysOf (l.foldl f acc) → k ∈ keysOf acc ∨ k ∈ l := by
  intro l
  induction l with
  | nil => intro acc k h; exact Or.inl h
  | cons x xs ih =>
    intro acc k h
    rcases ih (f acc x) k h with h2 | h2
    · rcases hf acc x k h2 with h3 | h3
      · exact Or.inl h3
      · exact Or.inr (h3 ▸ List.mem_cons_self _ _)
    · exact Or.inr (List.mem_cons_of_mem _ h2)

theorem nodup_foldl_step {f : List (Symb × Date) → Symb → List (Symb × Date)}
    (hf : ∀ acc x, nodupKeys acc → nodupKeys (f acc x)) :
    ∀ (l : List Symb) (acc : List (Symb × Date)),
      nodupKeys acc → nodupKeys (l.foldl f acc) := by
  intro l
  induction l with
  | nil => intro acc h; exact h
  | cons x xs ih => intro acc h; exact ih (f acc x) (hf acc x h)

theorem keys_assignBatch (df : Option (Symb → Option Date))
    (results : List (Symb × Date)) (batch : List Symb) (k : Symb)
    (h : k ∈ keysOf (assignBatch df results batch)) :
    k ∈ keysOf results ∨ k ∈ batch := by
  cases df with
  | none => exact Or.inl h
  | some data =>
    refine keys_foldl_step ?_ batch results k h
    intro acc x kk hk
    cases hd : data (to_yahoo_symbol x) with
    | none =>
      rw [hd] at hk
      exact Or.inl hk
    | some d =>
      rw [hd] at hk
      rcases mem_keysOf_mset acc x kk d hk with h3 | h3
      · exact Or.inr h3
      · exact Or.inl h3


theorem nodup_assignBatch (df : Option (Symb → Option Date))
    (results : List (Symb × Date)) (batch : List Symb)
    (h : nodupKeys results) : nodupKeys (assignBatch df results batch) := by
  cases df with
  | none => exact h
  | some data =>
    refine nodup_foldl_step ?_ batch results h
    intro acc x hacc
    cases hd : data (to_yahoo_symbol x) with
    | none => exact hacc
    | some d => exact nodupKeys_mset acc x d hacc

theorem keys_singleStep (env : FetchEnv) (pause : ℚ) (max_retries : Nat)
    (acc : List (Symb × Date)) (x k : Symb)
    (h : k ∈ keysOf (singleStep env pause max_retries acc x)) :
    k ∈ keysOf acc ∨ k = x := by
  unfold singleStep at h
  by_cases hm : keyMem acc x
  · rw [if_pos hm] at h
    exact Or.inl h
  · rw [if_neg hm] at h
    cases hs : (singleRetry (env.singleFetch (to_yahoo_symbol x))
        (to_yahoo_symbol x) pause max_retries).1 with
    | none => rw [hs] at h; exact Or.inl h
    | some d =>
      rw [hs] at h
      rcases mem_keysOf_mset acc x k d h with h3 | h3
      · exact Or.inr h3
      · exact Or.inl h3

theorem nodup_singleStep (env : FetchEnv) (pause : ℚ) (max_retries : Nat)
    (acc : List (Symb × Date)) (x : Symb) (h : nodupKeys acc) :
    nodupKeys (singleStep env pause max_retries acc x) := by
  unfold singleStep
  by_cases hm : keyMem acc x
  · rw [if_pos hm]; exact h
  · rw [if_neg hm]
    cases hs : (singleRetry (env.singleFetch (to_yahoo_symbol x))
        (to_yahoo_symbol x) pause max_retries).1 with
    | none => exact h
    | some d => exact nodupKeys_mset acc x d h

theorem keys_processBatches (env : FetchEnv) (pause : ℚ) (max_retries : Nat) :
    ∀ (batches : List (List Symb)) (bIdx : Nat) (results : List (Symb × Date))
      (k : Symb),
      k ∈ keysOf (processBatches env pause max_retries batches bIdx results) →
      k ∈ keysOf results ∨ ∃ b ∈ batches, k ∈ b := by
  intro batches
  induction batches with
  | nil => intro bIdx results k h; exact Or.inl h
  | cons batch rest ih =>
    intro bIdx results k h
    rw [processBatches] at h
    rcases ih (bIdx + 1) _ k h with h2 | h2
    · rcases keys_foldl_step (keys_singleStep env pause max_retries) _ _ k h2
        with h3 | h3
      · rcases keys_assignBatch _ results batch k h3 with h4 | h4
        · exact Or.inl h4
        · exact Or.inr ⟨batch, List.mem_cons_self _ _, h4⟩
      · exact Or.inr ⟨batch, List.mem_cons_self _ _, List.mem_of_mem_filter h3⟩
    · obtain ⟨b, hb, hkb⟩ := h2
      exact Or.inr ⟨b, List.mem_cons_of_mem _ hb, hkb⟩

theorem nodup_processBatches (env : FetchEnv) (pause : ℚ) (max_retries : Nat) :
    ∀ (batches : List (List Symb)) (bIdx : Nat) (results : List (Symb × Date)),
      nodupKeys results →
      nodupKeys (processBatches env pause max_retries batches bIdx results) := by
  intro batches
  induction batches with
  | nil => intro bIdx results h; exact h
  | cons batch rest ih =>
    intro bIdx results h
    rw [processBatches]
    exact ih (bIdx + 1) _
      (nodup_foldl_step (nodup_singleStep env pause max_retries) _ _
        (nodup_assignBatch _ results batch h))

theorem mem_chunksGo (batch_size : Nat) :
    ∀ (fuel : Nat) (l : List Symb) (b : List Symb) (x : Symb),
      b ∈ chunksGo batch_size fuel l → x ∈ b → x ∈ l := by
  intro fuel
  induction fuel with
  | zero =>
    intro l b x hb
    cases l with
    | nil => simp [chunksGo] at hb
    | cons y ys => simp [chunksGo] at hb
  | succ f ih =>
    intro l b x hb hx
    cases l with
    | nil => simp [chunksGo] at hb
    | cons y ys =>
      rw [chunksGo] at hb
      rcases List.mem_cons.1 hb with h2 | h2
      · exact List.take_subset _ _ (h2 ▸ hx)
      · exact List.drop_subset _ _ (ih _ b x h2 hx)

theorem keys_earliest_vendor_dates (env : FetchEnv) (tickers : List PyEntry)
    (batch_size : Nat) (pause : ℚ) (max_retries : Nat) (k : Symb)
    (h : k ∈ keysOf (earliest_vendor_dates env tickers batch_size pause max_retries)) :
    k ∈ dedupFirstSeen ((tickers.filterMap keptTicker).map normSym) := by
  unfold earliest_vendor_dates at h
  rcases keys_processBatches env pause max_retries _ 0 [] k h with h2 | h2
  · simp [keysOf] at h2
  · obtain ⟨b, hb, hkb⟩ := h2
    exact mem_chunksGo batch_size _ _ b k hb hkb

theorem nodup_keys_earliest_vendor_dates (env : FetchEnv) (tickers : List PyEntry)
    (batch_size : Nat) (pause : ℚ) (max_retries : Nat) :
    nodupKeys (earliest_vendor_dates env tickers batch_size pause max_retries) := by
  unfold earliest_vendor_dates
  exact nodup_processBatches env pause max_retries _ 0 []
    (by simp [nodupKeys, keysOf])

/-- C10: the resolver drops non-string and empty entries, strips and
uppercases the rest and deduplicates first-seen, so the returned table has
no repeated symbol and every returned symbol is the stripped-uppercase
form of some string entry of the input; malformed or duplicated input
never produces duplicate rows or an error. -/
theorem resolver_input_normalization :
    ∀ (env : FetchEnv) (tickers : List PyEntry) (batch_size : Nat)
      (pause : ℚ) (max_retries : Nat),
      (keysOf (earliest_vendor_dates env tickers batch_size pause max_retries)).Nodup ∧
      ∀ p ∈ earliest_vendor_dates env tickers batch_size pause max_retries,
        ∃ s, PyEntry.str s ∈ tickers ∧ s ≠ [] ∧ p.1 = normSym s := by
  intro env tickers bs pause mr
  constructor
  · exact nodup_keys_earliest_vendor_dates env tickers bs pause mr
  · intro p hp
    have hk : p.1 ∈ keysOf (earliest_vendor_dates env tickers bs pause mr) :=
      List.mem_map.2 ⟨p, hp, rfl⟩
    have h2 := keys_earliest_vendor_dates env tickers bs pause mr p.1 hk
    have h3 := mem_dedupFirstSeen h2
    obtain ⟨s0, hs0, heq⟩ := List.mem_map.1 h3
    obtain ⟨e, he, hke⟩ := List.mem_filterMap.1 hs0
    cases e with
    | nonstr => simp [keptTicker] at hke
    | str s =>
      rw [keptTicker] at hke
      by_cases hnil : s = []
      · rw [if_pos hnil] at hke
        exact absurd hke (by simp)
      · rw [if_neg hnil] at hke
        injection hke with hs0eq
        subst hs0eq
        exact ⟨s, he, hnil, heq.symm⟩

/-- Witness for C10: a run on the single whitespace-padded lowercase entry
" aapl " returns the symbol AAPL, the stripped-uppercase form of that
entry. -/
theorem resolver_input_normalization_witness :
    ∃ s, PyEntry.str s ∈ [PyEntry.str " aapl ".data] ∧ s ≠ [] ∧
      (("AAPL".data, (5 : Date)).1 = normSym s) :=
  (resolver_input_normalization
      ⟨fun _ _ => FetchOutcome.success fun _ => some 5,
       fun _ _ => FetchOutcome.otherError⟩
      [PyEntry.str " aapl ".data] 50 1 3).2
    ("AAPL".data, 5) (by decide)

/-! ### Embedding of earliest_vendor_dates_with_cache (vendor_yahoo.py 124 to 178) -/

/-- RawDate embeds the EarliestVendorDate field of one CSV cache row as the
source sees it: missing (NA), a value pd.to_datetime parses, or a value on
which pd.to_datetime raises. -/
inductive RawDate where
  | na : RawDate
  | valid : Date → RawDate
  | malformed : RawDate

/-- CacheRow embeds one parsed CSV row of the vendor cache. -/
structure CacheRow where
  rowSymbol : Symb
  rowDate : RawDate

/-- CacheFile embeds the state of the vendor cache path: the file does not
exist, pd.read_csv raises on it, or it parses into rows. -/
inductive CacheFile where
  | absent : CacheFile
  | unreadable : CacheFile
  | rows : List CacheRow → CacheFile

/-- loadCacheRows embeds the row loop of lines 143 to 147 inside the try
block: uppercase the symbol, skip NA dates, store parsed dates; a date on
which pd.to_datetime raises aborts the loop and the except clause keeps
the entries accumulated so far. -/
def loadCacheRows : List CacheRow → List (Symb × Date) → List (Symb × Date)
  | [], acc => acc
  | r :: rs, acc =>
    match r.rowDate with
    | RawDate.na => loadCacheRows rs acc
    | RawDate.valid d => loadCacheRows rs (mset acc (pyUpper r.rowSymbol) d)
    | RawDate.malformed => acc

/-- loadCache embeds lines 138 to 149: the cache is read only when a path
is given, the file exists and force_recheck is false; a file read_csv
cannot parse loads nothing. -/
def loadCache (cache_path : Option CacheFile) (force_recheck : Bool) :
    List (Symb × Date) :=
  match cache_path, force_recheck with
  | some (CacheFile.rows rs), false => loadCacheRows rs []
  | _, _ => []

/-- wcNormalize embeds line 137: keep truthy entries, strip and uppercase
each, keeping duplicates. -/
def wcNormalize (tickers : List Symb) : List Symb :=
  (tickers.filter fun t => decide (t ≠ [])).map normSym

/-- toFetchList embeds line 151: every input ticker when force_recheck,
else the cache misses. -/
def toFetchList (ts : List Symb) (cached : List (Symb × Date))
    (force_recheck : Bool) : List Symb :=
  ts.filter fun t => force_recheck || !keyMem cached t

/-- symbLe is code-point order on symbols, the Python str comparison used
by sorted. -/
def symbLe : Symb → Symb → Bool
  | [], _ => true
  | _ :: _, [] => false
  | a :: as, b :: bs => if a = b then symbLe as bs else decide (a.toNat < b.toNat)

/-- rowLe orders rows as Python sorts the (symbol, date) tuples of line
168: by symbol, then by date. -/
def rowLe (p q : Symb × Date) : Bool :=
  if p.1 = q.1 then decide (p.2 ≤ q.2) else symbLe p.1 q.1

/-- insertRow inserts one row into a sorted rows list. -/
def insertRow (p : Symb × Date) : List (Symb × Date) → List (Symb × Date)
  | [] => [p]
  | q :: rest => if rowLe p q then p :: q :: rest else q :: insertRow p rest

/-- sortRows embeds the sorted call of line 168 as an insertion sort; the
claims under verification depend on the sorted output only up to
membership. -/
def sortRows (l : List (Symb × Date)) : List (Symb × Date) :=
  l.foldr insertRow []

/-- CacheRunResult carries the two outputs of a resolveWithCache run: the
returned table and the rewritten cache file, none when no cache path was
given. -/
structure CacheRunResult where
  runResult : List (Symb × Date)
  written : Option (List (Symb × Date))

/-- wcFetched is the fetched table of lines 154 to 158: an empty frame
when nothing is to fetch, else a resolver run over the misses. -/
def wcFetched (env : FetchEnv) (tickers : List Symb)
    (cache_path : Option CacheFile) (batch_size : Nat) (pause : ℚ)
    (max_retries : Nat) (force_recheck : Bool) : List (Symb × Date) :=
  let to_fetch := toFetchList (wcNormalize tickers)
    (loadCache cache_path force_recheck) force_recheck
  if to_fetch = [] then []
  else earliest_vendor_dates env (to_fetch.map PyEntry.str)
    batch_size pause max_retries

/-- wcMergedMap is the merged_map of lines 161 to 166: copy the cached
dict entry by entry into an empty dict, then overlay the fetched rows,
uppercasing each fetched symbol again as the source does. -/
def wcMergedMap (env : FetchEnv) (tickers : List Symb)
    (cache_path : Option CacheFile) (batch_size : Nat) (pause : ℚ)
    (max_retries : Nat) (force_recheck : Bool) : List (Symb × Date) :=
  let cached := loadCache cache_path force_recheck
  let fetched := wcFetched env tickers cache_path batch_size pause
    max_retries force_recheck
  fetched.foldl (fun m p => mset m (pyUpper p.1) p.2)
    (cached.foldl (fun m p => mset m p.1 p.2) [])

/-- earliest_vendor_dates_with_cache embeds
vendor_yahoo.earliest_vendor_dates_with_cache: normalize the tickers, load
the cache unless force_recheck, fetch the misses (or everything under
force_recheck), copy the cached dict and overlay the fetched rows, sort,
persist the whole merged table when a cache path is given, and return only
the rows of requested tickers. All merged values are real dates, so the
dropna of line 169 keeps every row and is not represented. -/
def earliest_vendor_dates_with_cache (env : FetchEnv) (tickers : List Symb)
    (cache_path : Option CacheFile) (batch_size : Nat) (pause : ℚ)
    (max_retries : Nat) (force_recheck : Bool) : CacheRunResult :=
  let ts := wcNormalize tickers
  let result_rows := sortRows (wcMergedMap env tickers cache_path
    batch_size pause max_retries force_recheck)
  { runResult := result_rows.filter fun p => decide (p.1 ∈ ts),
    written := cache_path.map fun _ => result_rows }

/-! ### Facts about the cache merge -/

theorem insertRow_perm (p : Symb × Date) (l : List (Symb × Date)) :
    (insertRow p l).Perm (p :: l) := by
  induction l with
  | nil => exact List.Perm.refl _
  | cons q rest ih =>
    rw [insertRow]
    by_cases h : rowLe p q
    · rw [if_pos h]
    · rw [if_neg h]
      exact (ih.cons q).trans (List.Perm.swap p q rest)

theorem sortRows_perm (l : List (Symb × Date)) : (sortRows l).Perm l := by
  induction l with
  | nil => exact List.Perm.refl _
  | cons p rest ih =>
    rw [sortRows, List.foldr_cons]
    exact (insertRow_perm p _).trans (ih.cons p)

theorem nodupKeys_sortRows {l : List (Symb × Date)} (h : nodupKeys l) :
    nodupKeys (sortRows l) :=
  (List.Perm.nodup_iff ((sortRows_perm l).map Prod.fst)).2 h

theorem mem_sortRows {l : List (Symb × Date)} {p : Symb × Date} :
    p ∈ sortRows l ↔ p ∈ l :=
  (sortRows_perm l).mem_iff

theorem mem_unique_of_nodupKeys {W : List (Symb × Date)} {S : Symb}
    {d d2 : Date} (hnd : nodupKeys W) (h1 : (S, d) ∈ W) (h2 : (S, d2) ∈ W) :
    d2 = d := by
  have e1 := mfind_eq_some_of_mem hnd h1
  have e2 := mfind_eq_some_of_mem hnd h2
  rw [e1] at e2
  injection e2 with e3
  exact e3.symm

theorem mfind_append (a b : List (Symb × Date)) (k : Symb) :
    mfind (a ++ b) k =
      match mfind a k with
      | some v => some v
      | none => mfind b k := by
  induction a with
  | nil => simp [mfind]
  | cons p rest ih =>
    by_cases hp : p.1 = k
    · simp [mfind, hp]
    · simp [mfind, hp, ih]

theorem foldl_mset_copy :
    ∀ (l acc : List (Symb × Date)), nodupKeys l →
      (∀ p ∈ l, mfind acc p.1 = none) →
      l.foldl (fun m q => mset m q.1 q.2) acc = acc ++ l := by
  intro l
  induction l with
  | nil => intro acc _ _; simp
  | cons p rest ih =>
    intro acc hnd hnone
    unfold nodupKeys keysOf at hnd
    simp only [List.map_cons, List.nodup_cons] at hnd
    rw [List.foldl_cons]
    rw [mset_eq_append p.2 (hnone p (List.mem_cons_self _ _))]
    rw [ih (acc ++ [p]) hnd.2 ?_]
    · simp
    · intro q hq
      rw [mfind_append]
      rw [hnone q (List.mem_cons_of_mem _ hq)]
      have hne : p.1 ≠ q.1 := by
        intro hEq
        exact hnd.1 (hEq ▸ List.mem_map.2 ⟨q, hq, rfl⟩)
      simp [mfind, hne]

theorem nodupKeys_loadCacheRows :
    ∀ (rows : List CacheRow) (acc : List (Symb × Date)),
      nodupKeys acc → nodupKeys (loadCacheRows rows acc) := by
  intro rows
  induction rows with
  | nil => intro acc h; exact h
  | cons r rs ih =>
    intro acc h
    rw [loadCacheRows]
    cases r.rowDate with
    | na => exact ih acc h
    | valid d => exact ih _ (nodupKeys_mset acc _ d h)
    | malformed => exact h

theorem nodupKeys_loadCache (cache_path : Option CacheFile)
    (force_recheck : Bool) : nodupKeys (loadCache cache_path force_recheck) := by
  unfold loadCache
  cases cache_path with
  | none => simp [nodupKeys, keysOf]
  | some cf =>
    cases cf with
    | absent => cases force_recheck <;> simp [nodupKeys, keysOf]
    | unreadable => cases force_recheck <;> simp [nodupKeys, keysOf]
    | rows rs =>
      cases force_recheck with
      | true => simp [nodupKeys, keysOf]
      | false => exact nodupKeys_loadCacheRows rs [] (by simp [nodupKeys, keysOf])

theorem mfind_overlay_ne :
    ∀ (l m : List (Symb × Date)) (S : Symb),
      (∀ p ∈ l, pyUpper p.1 ≠ S) →
      mfind (l.foldl (fun m p => mset m (pyUpper p.1) p.2) m) S = mfind m S := by
  intro l
  induction l with
  | nil => intro m S _; rfl
  | cons p rest ih =>
    intro m S hne
    rw [List.foldl_cons]
    rw [ih _ S fun q hq => hne q (List.mem_cons_of_mem _ hq)]
    exact mfind_mset_ne m _ S p.2
      (fun hEq => hne p (List.mem_cons_self _ _) hEq.symm)

theorem nodup_overlay :
    ∀ (l m : List (Symb × Date)), nodupKeys m →
      nodupKeys (l.foldl (fun m p => mset m (pyUpper p.1) p.2) m) := by
  intro l
  induction l with
  | nil => intro m h; exact h
  | cons p rest ih =>
    intro m h
    rw [List.foldl_cons]
    exact ih _ (nodupKeys_mset m _ p.2 h)

theorem mem_wcNormalize_fixed {tickers : List Symb} {t : Symb}
    (h : t ∈ wcNormalize tickers) : normSym t = t ∧ pyUpper t = t := by
  obtain ⟨u, _, hu⟩ := List.mem_map.1 h
  constructor
  · rw [← hu]
    exact normSym_idem u
  · rw [← hu]
    unfold normSym
    exact pyUpper_idem (pyStrip u)

theorem filterMap_keptTicker_map_str (l : List Symb) :
    (l.map PyEntry.str).filterMap keptTicker = l.filter fun t => decide (t ≠ []) := by
  induction l with
  | nil => rfl
  | cons t rest ih =>
    rw [List.map_cons, List.filterMap_cons, List.filter_cons]
    by_cases h : t = []
    · subst h
      simp [keptTicker, ih]
    · simp [keptTicker, h, ih]

theorem keys_resolver_fixed (env : FetchEnv) (tf : List Symb)
    (batch_size : Nat) (pause : ℚ) (max_retries : Nat) (k : Symb)
    (hfix : ∀ t ∈ tf, normSym t = t)
    (h : k ∈ keysOf (earliest_vendor_dates env (tf.map PyEntry.str)
      batch_size pause max_retries)) : k ∈ tf := by
  have h2 := keys_earliest_vendor_dates env _ batch_size pause max_retries k h
  have h3 := mem_dedupFirstSeen h2
  rw [filterMap_keptTicker_map_str] at h3
  obtain ⟨t, ht, hk⟩ := List.mem_map.1 h3
  have htf : t ∈ tf := List.mem_of_mem_filter ht
  rw [← hk, hfix t htf]
  exact htf

theorem nodup_copy :
    ∀ (l m : List (Symb × Date)), nodupKeys m →
      nodupKeys (l.foldl (fun m q => mset m q.1 q.2) m) := by
  intro l
  induction l with
  | nil => intro m h; exact h
  | cons p rest ih =>
    intro m h
    rw [List.foldl_cons]
    exact ih _ (nodupKeys_mset m _ p.2 h)

theorem nodup_wcMergedMap (env : FetchEnv) (tickers : List Symb)
    (cp : Option CacheFile) (batch_size : Nat) (pause : ℚ) (max_retries : Nat)
    (force_recheck : Bool) :
    nodupKeys (wcMergedMap env tickers cp batch_size pause max_retries
      force_recheck) := by
  show nodupKeys ((wcFetched env tickers cp batch_size pause max_retries
      force_recheck).foldl (fun m p => mset m (pyUpper p.1) p.2)
    ((loadCache cp force_recheck).foldl (fun m q => mset m q.1 q.2) []))
  exact nodup_overlay _ _ (nodup_copy _ [] (by simp [nodupKeys, keysOf]))

theorem fetched_keys_are_misses (env : FetchEnv) (tickers : List Symb)
    (cp : Option CacheFile) (batch_size : Nat) (pause : ℚ) (max_retries : Nat)
    (p : Symb × Date)
    (hp : p ∈ wcFetched env tickers cp batch_size pause max_retries false) :
    pyUpper p.1 = p.1 ∧ keyMem (loadCache cp false) p.1 = false := by
  unfold wcFetched at hp
  by_cases htf : toFetchList (wcNormalize tickers) (loadCache cp false) false = []
  · rw [if_pos htf] at hp
    simp at hp
  · rw [if_neg htf] at hp
    have hfix : ∀ t ∈ toFetchList (wcNormalize tickers) (loadCache cp false) false,
        normSym t = t := by
      intro t ht
      exact (mem_wcNormalize_fixed (List.mem_of_mem_filter ht)).1
    have hkey : p.1 ∈ toFetchList (wcNormalize tickers) (loadCache cp false) false :=
      keys_resolver_fixed env _ batch_size pause max_retries p.1 hfix
        (List.mem_map.2 ⟨p, hp, rfl⟩)
    have hts : p.1 ∈ wcNormalize tickers := List.mem_of_mem_filter hkey
    have hcond := List.of_mem_filter hkey
    simp only [Bool.false_or, Bool.not_eq_true'] at hcond
    exact ⟨(mem_wcNormalize_fixed hts).2, hcond⟩

theorem mfind_wcMergedMap (env : FetchEnv) (tickers : List Symb)
    (cp : Option CacheFile) (batch_size : Nat) (pause : ℚ) (max_retries : Nat)
    (S : Symb) (d : Date)
    (hfind : mfind (loadCache cp false) S = some d) :
    mfind (wcMergedMap env tickers cp batch_size pause max_retries false) S =
      some d := by
  show mfind ((wcFetched env tickers cp batch_size pause max_retries
      false).foldl (fun m p => mset m (pyUpper p.1) p.2)
    ((loadCache cp false).foldl (fun m q => mset m q.1 q.2) [])) S = some d
  have hcopy : (loadCache cp false).foldl (fun m q => mset m q.1 q.2) [] =
      loadCache cp false := by
    have := foldl_mset_copy (loadCache cp false) []
      (nodupKeys_loadCache cp false) (fun p _ => rfl)
    simpa using this
  rw [hcopy]
  rw [mfind_overlay_ne _ _ S ?_]
  · exact hfind
  · intro p hp hEq
    obtain ⟨hfixp, hmiss⟩ := fetched_keys_are_misses env tickers cp
      batch_size pause max_retries p hp
    rw [hfixp] at hEq
    rw [hEq] at hmiss
    rw [keyMem, hfind] at hmiss
    simp at hmiss

/-- C2: with force_recheck true the ticker list handed to the resolver is
exactly the full normalized input list, independent of any cache contents;
the cache file is not even loaded. -/
theorem force_recheck_fetches_all :
    ∀ (tickers : List Symb) (cached : List (Symb × Date))
      (cp : Option CacheFile),
      toFetchList (wcNormalize tickers) cached true = wcNormalize tickers ∧
      loadCache cp true = [] := by
  intro tickers cached cp
  constructor
  · unfold toFetchList
    simp
  · unfold loadCache
    cases cp with
    | none => rfl
    | some cf => cases cf <;> rfl

/-- C1 counterexample: a vendor cache holding AAPL resolved at date 5,
run with forceRecheck true against an endpoint whose re-fetch fails, is
rewritten to an empty table; the previously resolved symbol is dropped
from the cache, contradicting the invariant as claimed for every value of
forceRecheck. -/
theorem force_recheck_drop_counterexample :
    loadCache (some (CacheFile.rows [⟨"AAPL".data, RawDate.valid 5⟩])) false =
      [("AAPL".data, 5)] ∧
    (earliest_vendor_dates_with_cache
        ⟨fun _ _ => FetchOutcome.otherError, fun _ _ => FetchOutcome.otherError⟩
        ["AAPL".data]
        (some (CacheFile.rows [⟨"AAPL".data, RawDate.valid 5⟩]))
        50 1 3 true).written = some [] := by
  constructor
  · decide
  · decide

/-- C1 corrected: with forceRecheck false, every symbol resolved in the
loaded cache is still present in the rewritten cache file with its date
unchanged (the fetched set consists of cache misses only, so a hit is
never overwritten); with forceRecheck true the cache is not loaded at all
and a symbol whose re-fetch fails is dropped, as the counterexample
shows. -/
theorem cache_write_preserves_resolved :
    ∀ (env : FetchEnv) (tickers : List Symb) (cf : CacheFile)
      (batch_size : Nat) (pause : ℚ) (max_retries : Nat) (S : Symb) (d : Date),
      mfind (loadCache (some cf) false) S = some d →
      ∃ W, (earliest_vendor_dates_with_cache env tickers (some cf) batch_size
          pause max_retries false).written = some W ∧
        (S, d) ∈ W ∧ ∀ d2, (S, d2) ∈ W → d2 = d := by
  intro env tickers cf bs pause mr S d hfind
  have hm := mfind_wcMergedMap env tickers (some cf) bs pause mr S d hfind
  have hnd := nodupKeys_sortRows
    (nodup_wcMergedMap env tickers (some cf) bs pause mr false)
  have hmem : (S, d) ∈ sortRows (wcMergedMap env tickers (some cf) bs pause
      mr false) := mem_sortRows.2 (mem_of_mfind_eq_some hm)
  exact ⟨_, rfl, hmem, fun d2 h2 => mem_unique_of_nodupKeys hnd hmem h2⟩

/-- Witness for the corrected C1: a cached AAPL at date 5 survives a
forceRecheck false run whose every fetch fails. -/
theorem cache_write_preserves_resolved_witness :
    ∃ W, (earliest_vendor_dates_with_cache
        ⟨fun _ _ => FetchOutcome.otherError, fun _ _ => FetchOutcome.otherError⟩
        [] (some (CacheFile.rows [⟨"AAPL".data, RawDate.valid 5⟩])) 50 1 3
        false).written = some W ∧
      ("AAPL".data, (5 : Date)) ∈ W ∧ ∀ d2, ("AAPL".data, d2) ∈ W → d2 = 5 :=
  cache_write_preserves_resolved _ [] _ 50 1 3 "AAPL".data 5 (by decide)

/-- C3: with forceRecheck false, a symbol present in the loaded cache and
among the normalized input tickers is returned with exactly its cached
date, and with no other date: only fetched symbols, which are cache
misses, can carry a fresh value. -/
theorem cache_hit_preserved_in_result :
    ∀ (env : FetchEnv) (tickers : List Symb) (cp : Option CacheFile)
      (batch_size : Nat) (pause : ℚ) (max_retries : Nat) (S : Symb) (d : Date),
      mfind (loadCache cp false) S = some d →
      S ∈ wcNormalize tickers →
      (S, d) ∈ (earliest_vendor_dates_with_cache env tickers cp batch_size
          pause max_retries false).runResult ∧
        ∀ d2, (S, d2) ∈ (earliest_vendor_dates_with_cache env tickers cp
            batch_size pause max_retries false).runResult → d2 = d := by
  intro env tickers cp bs pause mr S d hfind hts
  have hm := mfind_wcMergedMap env tickers cp bs pause mr S d hfind
  have hnd := nodupKeys_sortRows
    (nodup_wcMergedMap env tickers cp bs pause mr false)
  have hmem : (S, d) ∈ sortRows (wcMergedMap env tickers cp bs pause mr false) :=
    mem_sortRows.2 (mem_of_mfind_eq_some hm)
  constructor
  · show (S, d) ∈ (sortRows (wcMergedMap env tickers cp bs pause mr
        false)).filter fun p => decide (p.1 ∈ wcNormalize tickers)
    exact List.mem_filter.2 ⟨hmem, by simpa using hts⟩
  · intro d2 h2
    have h3 : (S, d2) ∈ sortRows (wcMergedMap env tickers cp bs pause mr
        false) := (List.mem_filter.1 h2).1
    exact mem_unique_of_nodupKeys hnd hmem h3

/-- Witness for C3: a cached AAPL at date 3 among the input tickers is
returned unchanged by a run whose every fetch fails. -/
theorem cache_hit_preserved_in_result_witness :
    ("AAPL".data, (3 : Date)) ∈ (earliest_vendor_dates_with_cache
        ⟨fun _ _ => FetchOutcome.otherError, fun _ _ => FetchOutcome.otherError⟩
        ["AAPL".data] (some (CacheFile.rows [⟨"AAPL".data, RawDate.valid 3⟩]))
        50 1 3 false).runResult ∧
      ∀ d2, ("AAPL".data, d2) ∈ (earliest_vendor_dates_with_cache
          ⟨fun _ _ => FetchOutcome.otherError, fun _ _ => FetchOutcome.otherError⟩
          ["AAPL".data] (some (CacheFile.rows [⟨"AAPL".data, RawDate.valid 3⟩]))
          50 1 3 false).runResult → d2 = 3 :=
  cache_hit_preserved_in_result _ ["AAPL".data] _ 50 1 3 "AAPL".data 3
    (by decide) (by decide)

/-- C5 counterexample: a cache file that parses as CSV but carries a
malformed date in its second row loads as the non-empty map of its first
row, not as the empty map: the exception aborts the row loop but keeps the
entries accumulated before it. -/
theorem corrupt_cache_not_empty_counterexample :
    loadCache (some (CacheFile.rows
        [⟨"A".data, RawDate.valid 5⟩, ⟨"B".data, RawDate.malformed⟩])) false =
      [("A".data, 5)] ∧
    [("A".data, (5 : Date))] ≠ ([] : List (Symb × Date)) := by
  constructor
  · decide
  · decide

/-- C5 corrected: cache-load failure never raises and always degrades to
fetching. A file pd.read_csv cannot parse loads as the empty map; a
malformed date aborts the row loop, keeping exactly the rows parsed before
it; and every normalized input ticker absent from whatever was loaded is
fetched. -/
theorem cache_load_degrades :
    (∀ force_recheck, loadCache (some CacheFile.unreadable) force_recheck = []) ∧
    (∀ (pre rest : List CacheRow) (r : CacheRow) (acc : List (Symb × Date)),
      r.rowDate = RawDate.malformed →
      (∀ q ∈ pre, q.rowDate ≠ RawDate.malformed) →
      loadCacheRows (pre ++ r :: rest) acc = loadCacheRows pre acc) ∧
    (∀ (tickers : List Symb) (cp : Option CacheFile) (t : Symb),
      t ∈ wcNormalize tickers → keyMem (loadCache cp false) t = false →
      t ∈ toFetchList (wcNormalize tickers) (loadCache cp false) false) := by
  refine ⟨fun fr => by cases fr <;> rfl, ?_, ?_⟩
  · intro pre
    induction pre with
    | nil =>
      intro rest r acc hr _
      rw [List.nil_append]
      show loadCacheRows (r :: rest) acc = acc
      rw [loadCacheRows, hr]
    | cons q qs ih =>
      intro rest r acc hr hpre
      rw [List.cons_append, loadCacheRows, loadCacheRows]
      have hq : q.rowDate ≠ RawDate.malformed := hpre q (List.mem_cons_self _ _)
      cases hqd : q.rowDate with
      | na => exact ih rest r acc hr fun x hx => hpre x (List.mem_cons_of_mem _ hx)
      | valid d => exact ih rest r _ hr fun x hx => hpre x (List.mem_cons_of_mem _ hx)
      | malformed => exact absurd hqd hq
  · intro tickers cp t hts hmiss
    unfold toFetchList
    refine List.mem_filter.2 ⟨hts, ?_⟩
    simp [hmiss]

/-- Witness for the corrected C5: the two-row cache with a malformed
second date keeps its first row, and the missing symbol B is fetched. -/
theorem cache_load_degrades_witness :
    loadCacheRows [CacheRow.mk "A".data (RawDate.valid 5),
        CacheRow.mk "B".data RawDate.malformed] [] =
      loadCacheRows [CacheRow.mk "A".data (RawDate.valid 5)] [] ∧
    "B".data ∈ toFetchList (wcNormalize ["B".data])
      (loadCache (some (CacheFile.rows
        [CacheRow.mk "A".data (RawDate.valid 5),
         CacheRow.mk "B".data RawDate.malformed])) false) false := by
  constructor
  · exact cache_load_degrades.2.1 [CacheRow.mk "A".data (RawDate.valid 5)] []
      (CacheRow.mk "B".data RawDate.malformed) [] rfl
      (by intro q hq; simp at hq; rw [hq]; simp)
  · exact cache_load_degrades.2.2 ["B".data] _ "B".data (by decide) (by decide)

/-! ### Embedding of the cache staleness validation (cli.py lines 121 to 165)

The validation pass runs when no skip flag is set, a vendor cache path is
given and exists, force_recheck is false and the sample fraction is
positive; the whole body sits in a try block whose except clause only
logs, so a failing read produces no report file. The random.sample call is
embedded as an oracle sampleFn. The report value some mm means the
mismatch file was written with header Symbol, FreshDate, CachedDate and
rows mm; none means no file was written. -/

/-- VRow embeds one row of the loaded vendor cache table after the
coercions of lines 135 to 136: symbol string and a date that is none when
pd.to_datetime coerced it to NaT. -/
structure VRow where
  vSymbol : Symb
  vDate : Option Date

/-- VFile embeds the state of the vendor cache file as the validation pass
sees it: read_csv raises, the two required columns are missing, or a
table of rows. -/
inductive VFile where
  | unreadable : VFile
  | missingCols : VFile
  | table : List VRow → VFile

/-- vNormRows embeds line 135: uppercase every symbol of the table. -/
def vNormRows (rows : List VRow) : List VRow :=
  rows.map fun r => VRow.mk (pyUpper r.vSymbol) r.vDate

/-- vCachedMap embeds line 137: drop NA dates and build the symbol-to-date
dict, later rows winning on duplicate symbols. -/
def vCachedMap (rows : List VRow) : List (Symb × Date) :=
  rows.foldl (fun m r =>
    match r.vDate with
    | some d => mset m r.vSymbol d
    | none => m) []

/-- vCandidates embeds line 139: cached symbols also present in the
current universe. -/
def vCandidates (rows : List VRow) (uni : List Symb) : List Symb :=
  (keysOf (vCachedMap rows)).filter fun s => decide (s ∈ uni.map pyUpper)

/-- vJoin embeds the left merge of line 150: each fresh row against every
cache row of its symbol, with an absent cached date for symbols the cache
table lacks. -/
def vJoin (rows : List VRow) (fresh : List (Symb × Date)) :
    List (Symb × Date × Option Date) :=
  fresh.flatMap fun p =>
    let hits := rows.filter fun r => decide (r.vSymbol = p.1)
    if hits.isEmpty then [(p.1, p.2, none)]
    else hits.map fun r => (p.1, p.2, r.vDate)

/-- vMismatches embeds line 152: joined rows with both dates present and
unequal. -/
def vMismatches (rows : List VRow) (fresh : List (Symb × Date)) :
    List (Symb × Date × Date) :=
  (vJoin rows fresh).filterMap fun q =>
    match q.2.2 with
    | some c => if q.2.1 ≠ c then some (q.1, q.2.1, c) else none
    | none => none

/-- validateCache embeds the validation pass given the loaded file state:
no report for an unreadable file or missing columns; restrict candidates
to the universe, sample, re-resolve; lines 147 to 160 write the mismatch
table, empty or not, only when the fresh frame is non-empty. -/
def validateCache (env : FetchEnv) (vfile : VFile) (uni : List Symb)
    (sample_frac : ℚ) (min_sample : Nat)
    (sampleFn : List Symb → ℤ → List Symb) (batch_size : Nat) (pause : ℚ)
    (max_retries : Nat) : Option (List (Symb × Date × Date)) :=
  match vfile with
  | VFile.unreadable => none
  | VFile.missingCols => none
  | VFile.table rows0 =>
    let rows := vNormRows rows0
    let candidates := vCandidates rows uni
    if candidates = [] then none
    else
      let k := sampleSize candidates.length sample_frac min_sample
      let sample := sampleFn candidates k
      let fresh := earliest_vendor_dates env (sample.map PyEntry.str)
        (min batch_size 50) pause max_retries
      if fresh = [] then none
      else some (vMismatches rows fresh)

/-- C6 counterexample: the validation pass runs (non-empty candidate set,
positive sample fraction) but the fresh re-resolution resolves no symbol,
and no report is written at all — the claim that the mismatch file is
written in every case fails. -/
theorem validation_empty_fresh_counterexample :
    vCandidates (vNormRows [VRow.mk "AAPL".data (some 5)]) ["AAPL".data] ≠ [] ∧
    (0 : ℚ) < 5 / 100 ∧
    validateCache
      ⟨fun _ _ => FetchOutcome.otherError, fun _ _ => FetchOutcome.otherError⟩
      (VFile.table [VRow.mk "AAPL".data (some 5)]) ["AAPL".data] (5 / 100) 20
      (fun c _ => c) 50 1 3 = none := by
  refine ⟨by decide, by norm_num, by decide⟩

/-- C6 corrected: given a readable table with the required columns and a
non-empty candidate set, the report is written exactly when the fresh
re-resolution returns at least one row — with the mismatch rows as
content, hence with zero data rows whenever fresh and cached dates agree —
and it is not written when the fresh frame is empty. -/
theorem validation_report_spec :
    ∀ (env : FetchEnv) (rows0 : List VRow) (uni : List Symb)
      (sample_frac : ℚ) (min_sample : Nat)
      (sampleFn : List Symb → ℤ → List Symb) (batch_size : Nat) (pause : ℚ)
      (max_retries : Nat),
      (vCandidates (vNormRows rows0) uni ≠ [] →
        ∀ fresh, fresh = earliest_vendor_dates env
            ((sampleFn (vCandidates (vNormRows rows0) uni)
              (sampleSize (vCandidates (vNormRows rows0) uni).length
                sample_frac min_sample)).map PyEntry.str)
            (min batch_size 50) pause max_retries →
          (fresh ≠ [] →
            validateCache env (VFile.table rows0) uni sample_frac min_sample
              sampleFn batch_size pause max_retries =
              some (vMismatches (vNormRows rows0) fresh)) ∧
          (fresh = [] →
            validateCache env (VFile.table rows0) uni sample_frac min_sample
              sampleFn batch_size pause max_retries = none)) ∧
      (∀ fresh : List (Symb × Date),
        (∀ p ∈ fresh, ∀ r ∈ vNormRows rows0, r.vSymbol = p.1 →
          r.vDate = some p.2) →
        vMismatches (vNormRows rows0) fresh = []) := by
  intro env rows0 uni sample_frac min_sample sampleFn batch_size pause mr
  constructor
  · intro hcand fresh hfr
    constructor
    · intro hne
      simp only [validateCache]
      rw [if_neg hcand, ← hfr, if_neg hne]
    · intro hemp
      simp only [validateCache]
      rw [if_neg hcand, ← hfr, if_pos hemp]
  · intro fresh hagree
    unfold vMismatches
    rw [List.filterMap_eq_nil_iff]
    intro q hq
    rw [vJoin] at hq
    obtain ⟨p, hp, hq2⟩ := List.mem_flatMap.1 hq
    by_cases hhits : ((vNormRows rows0).filter fun r =>
        decide (r.vSymbol = p.1)).isEmpty
    · simp only [hhits, if_true] at hq2
      simp at hq2
      rw [hq2]
    · simp only [hhits, if_false] at hq2
      obtain ⟨r, hr, hq3⟩ := List.mem_map.1 hq2
      have hrmem : r ∈ vNormRows rows0 := List.mem_of_mem_filter hr
      have hrsym : r.vSymbol = p.1 := by
        have := List.of_mem_filter hr
        simpa using this
      have hdate := hagree p hp r hrmem hrsym
      rw [← hq3]
      simp [hdate]

/-- Witness for the corrected C6: with a working endpoint agreeing with
the cache, the report is written with zero data rows. -/
theorem validation_report_spec_witness :
    validateCache
      ⟨fun _ _ => FetchOutcome.success fun _ => some 5,
       fun _ _ => FetchOutcome.otherError⟩
      (VFile.table [VRow.mk "AAPL".data (some 5)]) ["AAPL".data]
      (5 / 100) 20 (fun c _ => c) 50 1 3 = some [] := by
  have h := validation_report_spec
    ⟨fun _ _ => FetchOutcome.success fun _ => some 5,
     fun _ _ => FetchOutcome.otherError⟩
    [VRow.mk "AAPL".data (some 5)] ["AAPL".data] (5 / 100) 20
    (fun c _ => c) 50 1 3
  have h1 := h.1 (by decide) _ rfl
  have h2 := h1.1 (by decide)
  rw [h2]
  exact congrArg some (h.2 _ (by decide))
